import Mathlib

/-!
Shallow embedding of the Smart_Graph_Based_Sentimental_Analysis backend
(file backend/neo4j_handler.py) and verification of its specification.

Modelling conventions:
- The Neo4j graph is a `Store`: a list of `User` nodes, a list of `Post`
  nodes (each carrying its POSTED_BY owner id), and the list of directed
  SIMILAR_CONTENT edges (pairs of user ids).
- `randomUUID()` is modelled by a counter `nextId`; `datetime()` by a
  counter `clock` (ISO timestamp strings compare lexicographically, which
  matches numeric comparison of a monotone counter).
- A missing `p.deleted` property (`p.deleted IS NULL`) is modelled as
  `deleted = false`; posts are created with the marker unset.
- Python `str.lower()` and `str.split()` (split on whitespace runs,
  dropping empty tokens) are modelled over the character list.
- Exceptions raised by the database driver are modelled by a `FailSpec`
  saying which of the fetch / clear / write steps raises; the except
  block of `_update_relationships` catches them all.
-/

/-- Model of Python `str.lower()`. -/
def pyLower (s : String) : String := String.mk (s.data.map Char.toLower)

/-- Splits a character list on whitespace runs, dropping empty pieces,
accumulating the current token in reverse. -/
def wsSplitAux : List Char → List Char → List (List Char)
  | [], acc => if acc.isEmpty then [] else [acc.reverse]
  | c :: cs, acc =>
    if c.isWhitespace then
      if acc.isEmpty then wsSplitAux cs [] else acc.reverse :: wsSplitAux cs []
    else wsSplitAux cs (c :: acc)

/-- Model of Python `str.split()` with no separator argument. -/
def pySplit (s : String) : List String := (wsSplitAux s.data []).map String.mk

/-- Positive lexicon of `_analyze_sentiment`. -/
def positive_words : List String :=
  ["good", "great", "awesome", "excellent", "happy", "love", "wonderful", "amazing"]

/-- Negative lexicon of `_analyze_sentiment`. -/
def negative_words : List String :=
  ["bad", "terrible", "awful", "hate", "sad", "angry", "poor"]

/-- `_analyze_sentiment` (neo4j_handler.py lines 237-257): lowercase, split
on whitespace, count occurrences in each lexicon, compare. -/
def analyze_sentiment (content : String) : String :=
  let words := pySplit (pyLower content)
  let pos_count := (words.filter (fun w => decide (w ∈ positive_words))).length
  let neg_count := (words.filter (fun w => decide (w ∈ negative_words))).length
  if pos_count > neg_count then "positive"
  else if neg_count > pos_count then "negative"
  else "neutral"

/-- Spec-side classifier, following the words of spec section 4.1: count
token occurrences (with repetition) matching each lexicon and compare the
two counts. Used only to state the refinement theorem for the classifier. -/
def classify_spec (text : String) : String :=
  let tokens := pySplit (pyLower text)
  let posCount := tokens.countP (fun w => decide (w ∈ positive_words))
  let negCount := tokens.countP (fun w => decide (w ∈ negative_words))
  if negCount < posCount then "positive"
  else if posCount < negCount then "negative"
  else "neutral"

/-- A `User` node: `user_id` and `name` properties. -/
structure User where
  user_id : String
  name : String
deriving DecidableEq, Repr

/-- A `Post` node with its POSTED_BY owner. `deleted = false` models the
property being absent (`p.deleted IS NULL`). -/
structure Post where
  post_id : Nat
  owner : String
  content : String
  sentiment : String
  timestamp : Nat
  deleted : Bool
deriving DecidableEq, Repr

/-- The graph store: user nodes, post nodes, directed SIMILAR_CONTENT
edges, plus the id and clock counters modelling randomUUID and datetime. -/
structure Store where
  users : List User
  posts : List Post
  edges : List (String × String)
  nextId : Nat
  clock : Nat
deriving DecidableEq, Repr

/-- Store wellformedness: user ids are unique (`create_user` MERGEs on
`user_id`, so reachable stores satisfy this). -/
def Wf (σ : Store) : Prop := (σ.users.map (fun u => u.user_id)).Nodup

/-- `create_user` (lines 64-76): `MERGE (u:User {user_id}) ON CREATE SET
u.name ON MATCH SET u.name`. -/
def create_user (σ : Store) (uid nm : String) : Store :=
  if σ.users.any (fun u => decide (u.user_id = uid)) then
    { σ with users := σ.users.map (fun u => if u.user_id = uid then { u with name := nm } else u) }
  else
    { σ with users := σ.users ++ [⟨uid, nm⟩] }

/-- The contents collected for one user by the corpus query of
`_update_relationships` (lines 168-174): `COLLECT(p.content)` over all
posts POSTED_BY the user — note: no filter on the deleted marker. -/
def postContents (σ : Store) (uid : String) : List String :=
  (σ.posts.filter (fun p => decide (p.owner = uid))).map (fun p => p.content)

/-- The corpus query of `_update_relationships`: one row `(user_id,
contents)` per user with `size(contents) > 0`. -/
def fetch_users_with_content (σ : Store) : List (String × List String) :=
  σ.users.filterMap (fun u =>
    let contents := postContents σ u.user_id
    if 0 < contents.length then some (u.user_id, contents) else none)

/-- Python dict insertion: an existing key keeps its position and gets the
new value, a fresh key is appended. -/
def dictInsert {α : Type} (d : List (String × α)) (k : String) (v : α) : List (String × α) :=
  if d.any (fun p => decide (p.1 = k)) then
    d.map (fun p => if p.1 = k then (k, v) else p)
  else d ++ [(k, v)]

/-- Python dict built from a sequence of key-value pairs (models the dict
comprehensions of `_update_relationships`). -/
def dictOfList {α : Type} (l : List (String × α)) : List (String × α) :=
  l.foldl (fun d p => dictInsert d p.1 p.2) []

/-- `" ".join(filter(None, contents))`: drop empty strings, join with
single spaces. -/
def joinContents (cs : List String) : String :=
  String.intercalate " " (cs.filter (fun c => decide (c ≠ "")))

/-- `set(content.lower().split())`: the distinct lowercase whitespace
tokens of a string, as a duplicate-free list. -/
def wordSet (content : String) : List String :=
  (pySplit (pyLower content)).dedup

/-- The `user_contents` dict of `_update_relationships` (lines 184-187). -/
def user_contents (σ : Store) : List (String × String) :=
  dictOfList ((fetch_users_with_content σ).map (fun u => (u.1, joinContents u.2)))

/-- The `user_words` dict of `_update_relationships` (lines 190-193): each
user id mapped to its vocabulary set. -/
def user_words (σ : Store) : List (String × List String) :=
  dictOfList ((user_contents σ).map (fun p => (p.1, wordSet p.2)))

/-- `len(user_words[a].intersection(user_words[b]))`: the number of
distinct tokens common to both vocabularies. -/
def commonCount (wa wb : List String) : Nat :=
  (wa.filter (fun w => decide (w ∈ wb))).length

/-- The hardcoded `min_common_words = 1` of line 199. -/
def min_common_words : Nat := 1

/-- The inner loop body for a fixed user `u`: for each later user `v`, if
the vocabularies share at least `min_common_words` tokens, append both
directed edges. -/
def relsFor (u : String × List String) (rest : List (String × List String)) :
    List (String × String) :=
  (rest.map (fun v =>
    if min_common_words ≤ commonCount u.2 v.2 then [(u.1, v.1), (v.1, u.1)] else [])).flatten

/-- The nested `for i / for j in range(i+1, ...)` loop of lines 203-211,
building the `relationships` batch. -/
def buildRelationships : List (String × List String) → List (String × String)
  | [] => []
  | u :: rest => relsFor u rest ++ buildRelationships rest

/-- `_clear_relationships` (lines 220-223): delete every SIMILAR_CONTENT
edge. -/
def clear_relationships (σ : Store) : Store := { σ with edges := [] }

/-- Whether a user node with the given id exists (the `MATCH (u:User
{user_id: ...})` of `_create_relationships`). -/
def userExists (σ : Store) (uid : String) : Bool :=
  σ.users.any (fun u => decide (u.user_id = uid))

/-- One `MERGE (u1)-[:SIMILAR_CONTENT]->(u2)` row of
`_create_relationships` (lines 225-233): the edge is added only when both
endpoints match a user node and the edge is not already present. -/
def mergeEdge (σ : Store) (e : String × String) : Store :=
  if userExists σ e.1 && userExists σ e.2 && !(decide (e ∈ σ.edges)) then
    { σ with edges := σ.edges ++ [e] }
  else σ

/-- `_create_relationships`: UNWIND the batch, merging each edge. -/
def create_relationships (σ : Store) (rels : List (String × String)) : Store :=
  rels.foldl mergeEdge σ

/-- Which step of `_update_relationships` raises a driver exception during
this run (all are caught by its except block). -/
structure FailSpec where
  fetchFails : Bool
  clearFails : Bool
  writeFails : Bool
deriving DecidableEq, Repr

/-- A run with no driver exception. -/
def noFail : FailSpec := ⟨false, false, false⟩

/-- Result of one `_update_relationships` run: the store afterwards, which
of the clear / write steps were reached, and the batch built by the pair
loop. -/
structure RecompTrace where
  store : Store
  clearInvoked : Bool
  writeInvoked : Bool
  batch : List (String × String)
deriving DecidableEq, Repr

/-- `_update_relationships` (lines 166-218): fetch the corpus, return
early when fewer than 2 users have content, clear the edges, rebuild them
from pairwise vocabulary overlap; every exception is caught and swallowed
(a failing clear leaves the store as it was, a failing write leaves the
cleared store). -/
def update_relationships (σ : Store) (f : FailSpec) : RecompTrace :=
  if f.fetchFails then ⟨σ, false, false, []⟩
  else
    let users_data := fetch_users_with_content σ
    if users_data.length < 2 then ⟨σ, false, false, []⟩
    else
      let uw := user_words σ
      if f.clearFails then ⟨σ, true, false, []⟩
      else
        let σ1 := clear_relationships σ
        let rels := buildRelationships uw
        if rels.isEmpty then ⟨σ1, true, false, rels⟩
        else if f.writeFails then ⟨σ1, true, true, rels⟩
        else ⟨create_relationships σ1 rels, true, true, rels⟩

/-- Result of `create_post`: the store afterwards, the returned record or
the raised error, and whether `_update_relationships` was reached. -/
structure CreatePostResult where
  store : Store
  result : Except String Post
  recomputed : Bool

/-- `create_post` (lines 93-126): classify the sentiment, `MATCH` the
user and `CREATE` the post in one query (no user matched means no post is
created and the error is raised before `_update_relationships`), then
trigger the recomputation and return the record. -/
def create_post (σ : Store) (uid content : String) (f : FailSpec) : CreatePostResult :=
  let sentiment := analyze_sentiment content
  if userExists σ uid then
    let p : Post := ⟨σ.nextId, uid, content, sentiment, σ.clock, false⟩
    let σ1 : Store := ⟨σ.users, σ.posts ++ [p], σ.edges, σ.nextId + 1, σ.clock + 1⟩
    let t := update_relationships σ1 f
    ⟨t.store, Except.ok p, true⟩
  else
    ⟨σ, Except.error ("User with ID " ++ uid ++ " not found"), false⟩

/-- One row returned by `get_recent_posts`. -/
structure RecentRow where
  post_id : Nat
  content : String
  sentiment : String
  timestamp : Nat
  user_name : String
  user_id : String
deriving DecidableEq, Repr

/-- Ordering of `ORDER BY p.timestamp DESC`: a row comes no later than
rows with smaller or equal timestamps. -/
def newestFirst (a b : RecentRow) : Prop := b.timestamp ≤ a.timestamp

instance : DecidableRel newestFirst := fun a b => Nat.decLe b.timestamp a.timestamp

instance : IsTotal RecentRow newestFirst := ⟨fun a b => Nat.le_total b.timestamp a.timestamp⟩

instance : IsTrans RecentRow newestFirst := ⟨fun _ _ _ hab hbc => Nat.le_trans hbc hab⟩

/-- `get_recent_posts` (lines 144-162): join each post with its author,
keep rows with `p.deleted IS NULL`, order by timestamp descending, LIMIT
10. -/
def get_recent_posts (σ : Store) : List RecentRow :=
  let rows := (σ.posts.filter (fun p => !p.deleted)).filterMap
    (fun p => (σ.users.find? (fun u => decide (u.user_id = p.owner))).map
      (fun u => RecentRow.mk p.post_id p.content p.sentiment p.timestamp u.name u.user_id))
  (List.insertionSort newestFirst rows).take 10

/-- Flipping deleted markers arbitrarily, leaving every other field and
the rest of the store unchanged (used to state that the recomputation
corpus ignores the marker). -/
def set_deleted_flags (σ : Store) (g : Post → Bool) : Store :=
  { σ with posts := σ.posts.map (fun p => { p with deleted := g p }) }

/-- Spec-side count of positive-lexicon token occurrences (with
repetition). -/
def posCnt (content : String) : Nat :=
  (pySplit (pyLower content)).countP (fun w => decide (w ∈ positive_words))

/-- Spec-side count of negative-lexicon token occurrences (with
repetition). -/
def negCnt (content : String) : Nat :=
  (pySplit (pyLower content)).countP (fun w => decide (w ∈ negative_words))

instance (σ : Store) : Decidable (Wf σ) :=
  inferInstanceAs (Decidable ((σ.users.map (fun u : User => u.user_id)).Nodup))

/-- Concrete store realising the test vector of spec section 8: users A,
B, C with one post each, plus a stale similarity edge. -/
def specStore : Store :=
  ⟨[⟨"A", "a"⟩, ⟨"B", "b"⟩, ⟨"C", "c"⟩],
   [⟨0, "A", "I love dogs", "positive", 0, false⟩,
    ⟨1, "B", "I love cats", "positive", 1, false⟩,
    ⟨2, "C", "totally unrelated topic", "neutral", 2, false⟩],
   [("stale", "edge")], 3, 3⟩

/-- Concrete store with a single content-bearing user. -/
def soloStore : Store :=
  ⟨[⟨"a", "A"⟩], [⟨0, "a", "hi", "neutral", 0, false⟩], [("x", "y")], 1, 1⟩

/-- Concrete store in which the only post of user a is soft-deleted and
shares the token hello with the post of user b. -/
def storeWithDeleted : Store :=
  ⟨[⟨"a", "A"⟩, ⟨"b", "B"⟩],
   [⟨0, "a", "hello world", "neutral", 0, true⟩,
    ⟨1, "b", "hello there", "neutral", 1, false⟩],
   [], 2, 2⟩

/-- Concrete store in which every post of user e has empty content while
user x has a nonempty post. -/
def emptyContentStore : Store :=
  ⟨[⟨"e", "E"⟩, ⟨"x", "X"⟩],
   [⟨0, "e", "", "neutral", 0, false⟩,
    ⟨1, "x", "hello", "neutral", 1, false⟩],
   [], 2, 2⟩

/-- Concrete store with several posts, one soft-deleted, for exercising
`get_recent_posts`. -/
def recentStore : Store :=
  ⟨[⟨"a", "A"⟩, ⟨"b", "B"⟩],
   [⟨0, "a", "old", "neutral", 0, false⟩,
    ⟨1, "b", "gone", "neutral", 1, true⟩,
    ⟨2, "b", "new", "neutral", 2, false⟩],
   [], 3, 3⟩

/-! ## Sentiment classifier (claim C2) -/

lemma classify_iff (p n : Nat) :
    (((if n < p then "positive" else if p < n then "negative" else "neutral") : String) =
        "positive" ↔ n < p) ∧
    (((if n < p then "positive" else if p < n then "negative" else "neutral") : String) =
        "negative" ↔ p < n) ∧
    (((if n < p then "positive" else if p < n then "negative" else "neutral") : String) =
        "neutral" ↔ p = n) := by
  by_cases h1 : n < p
  · rw [if_pos h1]
    refine ⟨⟨fun _ => h1, fun _ => rfl⟩, ?_, ?_⟩
    · exact ⟨fun hx => absurd hx (by decide), fun hx => absurd hx (by omega)⟩
    · exact ⟨fun hx => absurd hx (by decide), fun hx => absurd hx (by omega)⟩
  · by_cases h2 : p < n
    · rw [if_neg h1, if_pos h2]
      refine ⟨?_, ⟨fun _ => h2, fun _ => rfl⟩, ?_⟩
      · exact ⟨fun hx => absurd hx (by decide), fun hx => absurd hx h1⟩
      · exact ⟨fun hx => absurd hx (by decide), fun hx => absurd hx (by omega)⟩
    · rw [if_neg h1, if_neg h2]
      refine ⟨?_, ?_, ⟨fun _ => by omega, fun _ => rfl⟩⟩
      · exact ⟨fun hx => absurd hx (by decide), fun hx => absurd hx h1⟩
      · exact ⟨fun hx => absurd hx (by decide), fun hx => absurd hx h2⟩

lemma analyze_sentiment_eq (content : String) :
    analyze_sentiment content =
      (if negCnt content < posCnt content then "positive"
       else if posCnt content < negCnt content then "negative" else "neutral") := by
  unfold analyze_sentiment posCnt negCnt
  simp only [List.countP_eq_length_filter, gt_iff_lt]

/-- Claim C2: `_analyze_sentiment` lowercases the text, splits it on
whitespace, counts token occurrences (with repetition) in the fixed and
disjoint POSITIVE and NEGATIVE lexicons, and returns positive exactly
when the positive count strictly exceeds the negative one, negative in
the symmetric case, and neutral on ties; it agrees with the spec-side
classifier on every input. -/
theorem sentiment_classifier_correct (content : String) :
    analyze_sentiment content = classify_spec content ∧
    (analyze_sentiment content = "positive" ↔ negCnt content < posCnt content) ∧
    (analyze_sentiment content = "negative" ↔ posCnt content < negCnt content) ∧
    (analyze_sentiment content = "neutral" ↔ posCnt content = negCnt content) ∧
    (∀ w : String, w ∈ positive_words → w ∉ negative_words) := by
  have h := classify_iff (posCnt content) (negCnt content)
  have ha := analyze_sentiment_eq content
  have hs : classify_spec content =
      (if negCnt content < posCnt content then "positive"
       else if posCnt content < negCnt content then "negative" else "neutral") := rfl
  refine ⟨by rw [ha, hs], ?_, ?_, ?_, by decide⟩
  · rw [ha]; exact h.1
  · rw [ha]; exact h.2.1
  · rw [ha]; exact h.2.2

theorem sentiment_classifier_correct_witness :
    analyze_sentiment "Great good day" = classify_spec "Great good day" ∧
    (analyze_sentiment "Great good day" = "positive" ↔
      negCnt "Great good day" < posCnt "Great good day") ∧
    "love" ∉ negative_words := by
  have h := sentiment_classifier_correct "Great good day"
  exact ⟨h.1, h.2.1, h.2.2.2.2 "love" (by decide)⟩

/-! ## Early return, swallowed failures, unknown user (claims C3, C4, C5) -/

/-- Claim C3: with fewer than 2 content-bearing users the recomputation
returns early: the store (hence the similarity edge set) is unchanged and
neither the clear step nor the write step is invoked. -/
theorem recompute_early_return (σ : Store) (f : FailSpec)
    (h : (fetch_users_with_content σ).length < 2) :
    (update_relationships σ f).store = σ ∧
    (update_relationships σ f).clearInvoked = false ∧
    (update_relationships σ f).writeInvoked = false := by
  by_cases hf : f.fetchFails <;> simp [update_relationships, hf, h]

theorem recompute_early_return_witness :
    (update_relationships soloStore noFail).store = soloStore ∧
    (update_relationships soloStore noFail).clearInvoked = false ∧
    (update_relationships soloStore noFail).writeInvoked = false :=
  recompute_early_return soloStore noFail (by decide)

/-- Claim C4: a driver exception in any recomputation step (fetch, clear
or write) is caught inside `_update_relationships` and never reaches the
caller of `create_post`: the returned result (success status and record)
is identical to the one of a failure-free run. -/
theorem recompute_failure_swallowed (σ : Store) (uid content : String) (f : FailSpec) :
    (create_post σ uid content f).result = (create_post σ uid content noFail).result := by
  by_cases h : userExists σ uid <;> simp [create_post, h]

/-- Claim C5: creating a post for an unknown user raises the
user-not-found error, creates no post, leaves the store (hence the edge
set) unchanged, and never reaches `_update_relationships`. -/
theorem create_post_unknown_user (σ : Store) (uid content : String) (f : FailSpec)
    (h : ∀ u ∈ σ.users, u.user_id ≠ uid) :
    (create_post σ uid content f).store = σ ∧
    (create_post σ uid content f).result =
      Except.error ("User with ID " ++ uid ++ " not found") ∧
    (create_post σ uid content f).recomputed = false := by
  have hx : userExists σ uid = false := by
    simp only [userExists, List.any_eq_false, decide_eq_true_eq]
    exact h
  simp [create_post, hx]

theorem create_post_unknown_user_witness :
    (create_post soloStore "z" "hello" noFail).store = soloStore ∧
    (create_post soloStore "z" "hello" noFail).result =
      Except.error ("User with ID " ++ "z" ++ " not found") ∧
    (create_post soloStore "z" "hello" noFail).recomputed = false :=
  create_post_unknown_user soloStore "z" "hello" noFail (by decide)

/-! ## Dictionary and corpus lemmas -/

lemma dictInsert_not_mem {α : Type} (d : List (String × α)) (k : String) (v : α)
    (h : k ∉ d.map Prod.fst) : dictInsert d k v = d ++ [(k, v)] := by
  have hc : d.any (fun p => decide (p.1 = k)) = false := by
    rw [List.any_eq_false]
    intro p hp
    simp only [decide_eq_true_eq]
    intro hpk
    exact h (by rw [← hpk]; exact List.mem_map_of_mem Prod.fst hp)
  simp [dictInsert, hc]

lemma foldl_dictInsert_eq_append {α : Type} :
    ∀ (l acc : List (String × α)), ((acc ++ l).map Prod.fst).Nodup →
      l.foldl (fun d p => dictInsert d p.1 p.2) acc = acc ++ l := by
  intro l
  induction l with
  | nil => intro acc _; simp
  | cons p rest ih =>
      intro acc h
      have hnotin : p.1 ∉ acc.map Prod.fst := by
        rw [List.map_append] at h
        intro hmem
        exact List.disjoint_of_nodup_append h hmem (by simp)
      have hstep : dictInsert acc p.1 p.2 = acc ++ [p] := by
        rw [dictInsert_not_mem acc p.1 p.2 hnotin]
      rw [List.foldl_cons, hstep, ih (acc ++ [p]) (by simpa using h)]
      simp

lemma dictOfList_id {α : Type} (l : List (String × α)) (h : (l.map Prod.fst).Nodup) :
    dictOfList l = l := by
  have := foldl_dictInsert_eq_append l [] (by simpa using h)
  simpa [dictOfList] using this

lemma mem_fetch (σ : Store) (uid : String) (cs : List String) :
    (uid, cs) ∈ fetch_users_with_content σ ↔
      ∃ u ∈ σ.users, u.user_id = uid ∧ cs = postContents σ uid ∧ 0 < cs.length := by
  unfold fetch_users_with_content
  rw [List.mem_filterMap]
  constructor
  · rintro ⟨u, hu, hf⟩
    dsimp only at hf
    split at hf
    · rename_i hlen
      cases hf
      exact ⟨u, hu, rfl, rfl, hlen⟩
    · cases hf
  · rintro ⟨u, hu, rfl, rfl, hlen⟩
    exact ⟨u, hu, by simp [hlen]⟩

lemma keys_sublist {β : Type} (g : User → Option (String × β))
    (hg : ∀ u r, g u = some r → r.1 = u.user_id) :
    ∀ l : List User, ((l.filterMap g).map Prod.fst).Sublist (l.map (fun u => u.user_id)) := by
  intro l
  induction l with
  | nil => simp
  | cons u rest ih =>
      cases hgu : g u with
      | none => simpa [List.filterMap_cons, hgu] using ih.cons u.user_id
      | some r =>
          simp only [List.filterMap_cons, hgu, List.map_cons]
          rw [hg u r hgu]
          exact ih.cons₂ u.user_id

lemma fetch_keys_nodup (σ : Store) (h : Wf σ) :
    ((fetch_users_with_content σ).map Prod.fst).Nodup := by
  have hs := keys_sublist
    (fun u =>
      let contents := postContents σ u.user_id
      if 0 < contents.length then some (u.user_id, contents) else none)
    (by
      intro u r hr
      dsimp only at hr
      split at hr
      · cases hr; rfl
      · cases hr)
    σ.users
  exact List.Nodup.sublist hs h

lemma user_contents_eq (σ : Store) (h : Wf σ) :
    user_contents σ =
      (fetch_users_with_content σ).map (fun u => (u.1, joinContents u.2)) := by
  unfold user_contents
  apply dictOfList_id
  have : ((fetch_users_with_content σ).map (fun u => (u.1, joinContents u.2))).map Prod.fst =
      (fetch_users_with_content σ).map Prod.fst := by
    simp [List.map_map, Function.comp]
  rw [this]
  exact fetch_keys_nodup σ h

lemma user_words_eq (σ : Store) (h : Wf σ) :
    user_words σ =
      (fetch_users_with_content σ).map (fun u => (u.1, wordSet (joinContents u.2))) := by
  unfold user_words
  rw [user_contents_eq σ h, List.map_map]
  apply dictOfList_id
  have : ((fetch_users_with_content σ).map
      ((fun p : String × String => (p.1, wordSet p.2)) ∘
        (fun u : String × List String => (u.1, joinContents u.2)))).map Prod.fst =
      (fetch_users_with_content σ).map Prod.fst := by
    simp [List.map_map, Function.comp]
  rw [this]
  exact fetch_keys_nodup σ h

lemma user_words_keys_nodup (σ : Store) (h : Wf σ) :
    ((user_words σ).map Prod.fst).Nodup := by
  rw [user_words_eq σ h]
  have : ((fetch_users_with_content σ).map
      (fun u : String × List String => (u.1, wordSet (joinContents u.2)))).map Prod.fst =
      (fetch_users_with_content σ).map Prod.fst := by
    simp [List.map_map, Function.comp]
  rw [this]
  exact fetch_keys_nodup σ h

lemma user_words_values_nodup (σ : Store) (h : Wf σ) :
    ∀ p ∈ user_words σ, (p.2 : List String).Nodup := by
  rw [user_words_eq σ h]
  intro p hp
  rw [List.mem_map] at hp
  obtain ⟨u, _, rfl⟩ := hp
  exact List.nodup_dedup _

lemma user_words_key_exists (σ : Store) (hwf : Wf σ) {k : String} {w : List String}
    (h : (k, w) ∈ user_words σ) : userExists σ k = true := by
  rw [user_words_eq σ hwf, List.mem_map] at h
  obtain ⟨u, hu, heq⟩ := h
  have hk : u.1 = k := congrArg Prod.fst heq
  have hm : (u.1, u.2) ∈ fetch_users_with_content σ := by simpa using hu
  obtain ⟨uu, huu, hid, -, -⟩ := (mem_fetch σ u.1 u.2).mp hm
  rw [userExists, List.any_eq_true]
  exact ⟨uu, huu, by simp [hid, hk]⟩

/-! ## Vocabulary overlap and the pair loop -/

lemma commonCount_card (x y : List String) (hx : x.Nodup) :
    commonCount x y = (x.toFinset ∩ y.toFinset).card := by
  unfold commonCount
  rw [← List.toFinset_card_of_nodup (hx.filter _)]
  congr 1
  ext a
  simp [List.mem_toFinset, List.mem_filter]

lemma commonCount_comm (wa wb : List String) (ha : wa.Nodup) (hb : wb.Nodup) :
    commonCount wa wb = commonCount wb wa := by
  rw [commonCount_card wa wb ha, commonCount_card wb wa hb, Finset.inter_comm]

lemma commonCount_nil_left (wb : List String) : commonCount [] wb = 0 := rfl

lemma commonCount_nil_right (wa : List String) : commonCount wa [] = 0 := by
  simp [commonCount]

lemma mem_relsFor {u : String × List String} {rest : List (String × List String)}
    {a b : String} :
    (a, b) ∈ relsFor u rest ↔
      ∃ v ∈ rest, min_common_words ≤ commonCount u.2 v.2 ∧
        ((a, b) = (u.1, v.1) ∨ (a, b) = (v.1, u.1)) := by
  unfold relsFor
  rw [List.mem_flatten]
  constructor
  · rintro ⟨l, hl, hab⟩
    rw [List.mem_map] at hl
    obtain ⟨v, hv, rfl⟩ := hl
    by_cases hq : min_common_words ≤ commonCount u.2 v.2
    · rw [if_pos hq] at hab
      simp only [List.mem_cons, List.mem_singleton] at hab
      rcases hab with h | h | h
      · exact ⟨v, hv, hq, Or.inl h⟩
      · exact ⟨v, hv, hq, Or.inr h⟩
      · cases h
    · rw [if_neg hq] at hab
      cases hab
  · rintro ⟨v, hv, hq, hor⟩
    refine ⟨if min_common_words ≤ commonCount u.2 v.2 then [(u.1, v.1), (v.1, u.1)] else [],
      List.mem_map_of_mem _ hv, ?_⟩
    rw [if_pos hq]
    rcases hor with h | h <;> simp [h]

lemma endpoints_mem_keys :
    ∀ {uw : List (String × List String)} {a b : String},
      (a, b) ∈ buildRelationships uw → a ∈ uw.map Prod.fst ∧ b ∈ uw.map Prod.fst := by
  intro uw
  induction uw with
  | nil => intro a b h; cases h
  | cons u rest ih =>
      intro a b h
      rw [buildRelationships, List.mem_append] at h
      rcases h with h | h
      · rw [mem_relsFor] at h
        obtain ⟨v, hv, -, hor⟩ := h
        have hvk : v.1 ∈ rest.map Prod.fst := List.mem_map_of_mem Prod.fst hv
        rcases hor with h | h <;> cases h <;>
          exact ⟨by simp [List.mem_cons] <;> tauto, by simp [List.mem_cons] <;> tauto⟩
      · obtain ⟨h1, h2⟩ := ih h
        exact ⟨by simp [h1], by simp [h2]⟩

lemma no_self_edges :
    ∀ {uw : List (String × List String)}, (uw.map Prod.fst).Nodup →
      ∀ {a b : String}, (a, b) ∈ buildRelationships uw → a ≠ b := by
  intro uw
  induction uw with
  | nil => intro _ a b h; cases h
  | cons u rest ih =>
      intro hk a b h
      rw [List.map_cons, List.nodup_cons] at hk
      rw [buildRelationships, List.mem_append] at h
      rcases h with h | h
      · rw [mem_relsFor] at h
        obtain ⟨v, hv, -, hor⟩ := h
        have hvk : v.1 ∈ rest.map Prod.fst := List.mem_map_of_mem Prod.fst hv
        have hne : u.1 ≠ v.1 := fun hx => hk.1 (hx ▸ hvk)
        rcases hor with hx | hx <;> cases hx
        · exact hne
        · exact hne.symm
      · exact ih hk.2 h

lemma relsFor_nodup {u : String × List String} :
    ∀ {rest : List (String × List String)}, ((u.1 :: rest.map Prod.fst).Nodup) →
      (relsFor u rest).Nodup := by
  intro rest
  induction rest with
  | nil => intro _; simp [relsFor]
  | cons v rest' ih =>
      intro hk
      rw [List.map_cons, List.nodup_cons, List.nodup_cons] at hk
      obtain ⟨hu, hv, hrest⟩ := hk
      have hu1 : u.1 ≠ v.1 := fun hx => hu (by simp [hx])
      have hu2 : u.1 ∉ rest'.map Prod.fst := fun hx => hu (by simp [hx])
      have hblock : relsFor u (v :: rest') =
          (if min_common_words ≤ commonCount u.2 v.2
            then [(u.1, v.1), (v.1, u.1)] else []) ++ relsFor u rest' := by
        simp [relsFor]
      rw [hblock, List.nodup_append]
      refine ⟨?_, ih (List.nodup_cons.mpr ⟨hu2, hrest⟩), ?_⟩
      · split
        · simp [Prod.ext_iff, hu1]
        · simp
      · intro e he hemem
        rw [mem_relsFor] at hemem
        obtain ⟨v2, hv2, -, hor2⟩ := hemem
        have hv2k : v2.1 ∈ rest'.map Prod.fst := List.mem_map_of_mem Prod.fst hv2
        split at he
        · simp only [List.mem_cons, List.mem_singleton] at he
          rcases he with rfl | he
          · rcases hor2 with hx | hx
            · rw [Prod.mk.injEq] at hx
              dsimp only at hx
              exact hv (by rw [hx.2]; exact hv2k)
            · rw [Prod.mk.injEq] at hx
              dsimp only at hx
              exact hu2 (by rw [hx.1]; exact hv2k)
          · rcases he with rfl | he
            · rcases hor2 with hx | hx
              · rw [Prod.mk.injEq] at hx
                dsimp only at hx
                exact hu1 hx.1.symm
              · rw [Prod.mk.injEq] at hx
                dsimp only at hx
                exact hv (by rw [hx.1]; exact hv2k)
            · cases he
        · cases he

lemma buildRelationships_nodup :
    ∀ {uw : List (String × List String)}, (uw.map Prod.fst).Nodup →
      (buildRelationships uw).Nodup := by
  intro uw
  induction uw with
  | nil => intro _; simp [buildRelationships]
  | cons u rest ih =>
      intro hk
      have hk' := hk
      rw [List.map_cons, List.nodup_cons] at hk'
      rw [buildRelationships, List.nodup_append]
      refine ⟨relsFor_nodup (by simpa using hk), ih hk'.2, ?_⟩
      intro e he hemem
      obtain ⟨a, b⟩ := e
      rw [mem_relsFor] at he
      obtain ⟨v, hv, -, hor⟩ := he
      obtain ⟨h1, h2⟩ := endpoints_mem_keys hemem
      rcases hor with hx | hx <;> cases hx
      · exact hk'.1 h1
      · exact hk'.1 h2

lemma mem_buildRelationships :
    ∀ {uw : List (String × List String)}, (uw.map Prod.fst).Nodup →
      (∀ p ∈ uw, (p.2 : List String).Nodup) →
      ∀ {a b : String},
        ((a, b) ∈ buildRelationships uw ↔
          ∃ wa wb, (a, wa) ∈ uw ∧ (b, wb) ∈ uw ∧ a ≠ b ∧
            min_common_words ≤ commonCount wa wb) := by
  intro uw
  induction uw with
  | nil =>
      intro _ _ a b
      simp [buildRelationships]
  | cons u rest ih =>
      intro hk hv a b
      rw [List.map_cons, List.nodup_cons] at hk
      have hvu : u.2.Nodup := hv u (by simp)
      have hvrest : ∀ p ∈ rest, (p.2 : List String).Nodup :=
        fun p hp => hv p (by simp [hp])
      rw [buildRelationships, List.mem_append, mem_relsFor, ih hk.2 hvrest]
      constructor
      · rintro (⟨v, hvmem, hq, hor⟩ | ⟨wa, wb, ha, hb, hne, hq⟩)
        · have hvk : v.1 ∈ rest.map Prod.fst := List.mem_map_of_mem Prod.fst hvmem
          have hne : u.1 ≠ v.1 := fun hx => hk.1 (hx ▸ hvk)
          have hvv : v.2.Nodup := hvrest v hvmem
          rcases hor with hx | hx <;> cases hx
          · exact ⟨u.2, v.2, by simp, by simp [hvmem], hne, hq⟩
          · refine ⟨v.2, u.2, by simp [hvmem], by simp, hne.symm, ?_⟩
            rwa [commonCount_comm v.2 u.2 hvv hvu]
        · exact ⟨wa, wb, by simp [ha], by simp [hb], hne, hq⟩
      · rintro ⟨wa, wb, ha, hb, hne, hq⟩
        rw [List.mem_cons] at ha hb
        rcases ha with ha | ha <;> rcases hb with hb | hb
        · exfalso
          have h1 : a = u.1 := congrArg Prod.fst ha
          have h2 : b = u.1 := congrArg Prod.fst hb
          exact hne (h1.trans h2.symm)
        · left
          have h1 : a = u.1 := congrArg Prod.fst ha
          have h2 : wa = u.2 := congrArg Prod.snd ha
          refine ⟨(b, wb), hb, ?_, Or.inl (by simp [h1])⟩
          rw [← h2]
          exact hq
        · left
          have h1 : b = u.1 := congrArg Prod.fst hb
          have h2 : wb = u.2 := congrArg Prod.snd hb
          have hwa : wa.Nodup := hvrest (a, wa) ha
          refine ⟨(a, wa), ha, ?_, Or.inr (by simp [h1])⟩
          rw [commonCount_comm u.2 wa hvu hwa, ← h2]
          exact hq
        · right
          exact ⟨wa, wb, ha, hb, hne, hq⟩

/-! ## Writing the batch and the rebuilt edge set -/

lemma mergeEdge_users (σ : Store) (e : String × String) :
    (mergeEdge σ e).users = σ.users := by
  unfold mergeEdge
  split <;> rfl

lemma userExists_mergeEdge (σ : Store) (e : String × String) (k : String) :
    userExists (mergeEdge σ e) k = userExists σ k := by
  unfold userExists
  rw [mergeEdge_users]

lemma mem_create_relationships :
    ∀ (rels : List (String × String)) (σ : Store) (x : String × String),
      (x ∈ (create_relationships σ rels).edges ↔
        x ∈ σ.edges ∨ (x ∈ rels ∧ userExists σ x.1 = true ∧ userExists σ x.2 = true)) := by
  intro rels
  induction rels with
  | nil =>
      intro σ x
      simp [create_relationships]
  | cons e rest ih =>
      intro σ x
      have hstep : create_relationships σ (e :: rest) =
          create_relationships (mergeEdge σ e) rest := rfl
      rw [hstep, ih (mergeEdge σ e) x, userExists_mergeEdge, userExists_mergeEdge]
      unfold mergeEdge
      by_cases hc : (userExists σ e.1 && userExists σ e.2 && !(decide (e ∈ σ.edges))) = true
      · rw [if_pos hc]
        simp only [Bool.and_eq_true, Bool.not_eq_true', decide_eq_false_iff_not] at hc
        obtain ⟨⟨he1, he2⟩, henotin⟩ := hc
        dsimp only
        rw [List.mem_append, List.mem_singleton]
        constructor
        · rintro ((hx | hx) | ⟨hxrest, hx1, hx2⟩)
          · exact Or.inl hx
          · subst hx
            exact Or.inr ⟨List.mem_cons_self x rest, he1, he2⟩
          · exact Or.inr ⟨List.mem_cons_of_mem e hxrest, hx1, hx2⟩
        · rintro (hx | ⟨hxmem, hx1, hx2⟩)
          · exact Or.inl (Or.inl hx)
          · rw [List.mem_cons] at hxmem
            rcases hxmem with rfl | hxmem
            · exact Or.inl (Or.inr rfl)
            · exact Or.inr ⟨hxmem, hx1, hx2⟩
      · rw [if_neg hc]
        simp only [Bool.and_eq_true, Bool.not_eq_true', decide_eq_false_iff_not, not_and,
          Classical.not_not] at hc
        constructor
        · rintro (hx | ⟨hxrest, hx1, hx2⟩)
          · exact Or.inl hx
          · exact Or.inr ⟨List.mem_cons_of_mem e hxrest, hx1, hx2⟩
        · rintro (hx | ⟨hxmem, hx1, hx2⟩)
          · exact Or.inl hx
          · rw [List.mem_cons] at hxmem
            rcases hxmem with rfl | hxmem
            · exact Or.inl (hc ⟨hx1, hx2⟩)
            · exact Or.inr ⟨hxmem, hx1, hx2⟩

lemma create_relationships_edges_nodup :
    ∀ (rels : List (String × String)) (σ : Store), σ.edges.Nodup →
      (create_relationships σ rels).edges.Nodup := by
  intro rels
  induction rels with
  | nil => intro σ h; exact h
  | cons e rest ih =>
      intro σ h
      have hstep : create_relationships σ (e :: rest) =
          create_relationships (mergeEdge σ e) rest := rfl
      rw [hstep]
      apply ih
      unfold mergeEdge
      by_cases hc : (userExists σ e.1 && userExists σ e.2 && !(decide (e ∈ σ.edges))) = true
      · rw [if_pos hc]
        simp only [Bool.and_eq_true, Bool.not_eq_true', decide_eq_false_iff_not] at hc
        obtain ⟨-, henotin⟩ := hc
        dsimp only
        rw [List.nodup_append]
        exact ⟨h, List.nodup_singleton e, by
          intro a ha hamem
          rw [List.mem_singleton] at hamem
          subst hamem
          exact henotin ha⟩
      · rw [if_neg hc]
        exact h

lemma update_noFail_store (σ : Store) (h2 : 2 ≤ (fetch_users_with_content σ).length) :
    (update_relationships σ noFail).store =
      create_relationships (clear_relationships σ) (buildRelationships (user_words σ)) := by
  have hlt : ¬ (fetch_users_with_content σ).length < 2 := by omega
  unfold update_relationships
  simp only [noFail, Bool.false_eq_true, if_false, hlt]
  split
  · rename_i hempty
    rw [List.isEmpty_iff] at hempty
    rw [hempty]
    rfl
  · rfl

lemma update_edges_mem_iff (σ : Store) (hwf : Wf σ)
    (h2 : 2 ≤ (fetch_users_with_content σ).length) (a b : String) :
    ((a, b) ∈ (update_relationships σ noFail).store.edges ↔
      ∃ wa wb, (a, wa) ∈ user_words σ ∧ (b, wb) ∈ user_words σ ∧ a ≠ b ∧
        min_common_words ≤ commonCount wa wb) := by
  rw [update_noFail_store σ h2]
  rw [mem_create_relationships]
  have hclear_edges : (clear_relationships σ).edges = [] := rfl
  have hclear_users : ∀ k, userExists (clear_relationships σ) k = userExists σ k :=
    fun k => rfl
  rw [hclear_edges, hclear_users, hclear_users]
  simp only [List.not_mem_nil, false_or]
  rw [mem_buildRelationships (user_words_keys_nodup σ hwf) (user_words_values_nodup σ hwf)]
  constructor
  · rintro ⟨⟨wa, wb, ha, hb, hne, hq⟩, -, -⟩
    exact ⟨wa, wb, ha, hb, hne, hq⟩
  · rintro ⟨wa, wb, ha, hb, hne, hq⟩
    exact ⟨⟨wa, wb, ha, hb, hne, hq⟩, user_words_key_exists σ hwf ha,
      user_words_key_exists σ hwf hb⟩

lemma keys_nodup_value_unique {α : Type} :
    ∀ {l : List (String × α)}, (l.map Prod.fst).Nodup →
      ∀ {k : String} {v v' : α}, (k, v) ∈ l → (k, v') ∈ l → v = v' := by
  intro l
  induction l with
  | nil => intro _ k v v' h; cases h
  | cons p rest ih =>
      intro h k v v' h1 h2
      rw [List.map_cons, List.nodup_cons] at h
      rw [List.mem_cons] at h1 h2
      rcases h1 with h1 | h1 <;> rcases h2 with h2 | h2
      · exact congrArg Prod.snd (h1.trans h2.symm)
      · exfalso
        have hk2 : k ∈ rest.map Prod.fst := by
          simpa using List.mem_map_of_mem Prod.fst h2
        have hkk : k = p.1 := congrArg Prod.fst h1
        exact h.1 (hkk ▸ hk2)
      · exfalso
        have hk2 : k ∈ rest.map Prod.fst := by
          simpa using List.mem_map_of_mem Prod.fst h1
        have hkk : k = p.1 := congrArg Prod.fst h2
        exact h.1 (hkk ▸ hk2)
      · exact ih h.2 h1 h2

lemma joinContents_all_empty (cs : List String) (h : ∀ c ∈ cs, c = "") :
    joinContents cs = "" := by
  unfold joinContents
  have hnil : cs.filter (fun c => decide (c ≠ "")) = [] := by
    rw [List.filter_eq_nil_iff]
    intro c hc
    simp [h c hc]
  rw [hnil]
  rfl

/-- Claim C1: immediately after a recomputation that runs the full
fetch-build-clear-write sequence without failure, an edge `(a, b)` is
present exactly when `a` and `b` are distinct fetched users whose
vocabulary sets share at least `min_common_words` tokens, and the edge
set is symmetric; in particular no stale pre-existing edge survives. -/
theorem similarity_edges_exact (σ : Store) (hwf : Wf σ)
    (h2 : 2 ≤ (fetch_users_with_content σ).length) (a b : String) :
    ((a, b) ∈ (update_relationships σ noFail).store.edges ↔
      ∃ wa wb, (a, wa) ∈ user_words σ ∧ (b, wb) ∈ user_words σ ∧ a ≠ b ∧
        min_common_words ≤ commonCount wa wb) ∧
    ((a, b) ∈ (update_relationships σ noFail).store.edges ↔
      (b, a) ∈ (update_relationships σ noFail).store.edges) := by
  refine ⟨update_edges_mem_iff σ hwf h2 a b, ?_⟩
  rw [update_edges_mem_iff σ hwf h2 a b, update_edges_mem_iff σ hwf h2 b a]
  constructor
  · rintro ⟨wa, wb, ha, hb, hne, hq⟩
    refine ⟨wb, wa, hb, ha, hne.symm, ?_⟩
    rwa [commonCount_comm wb wa (user_words_values_nodup σ hwf (b, wb) hb)
      (user_words_values_nodup σ hwf (a, wa) ha)]
  · rintro ⟨wb, wa, hb, ha, hne, hq⟩
    refine ⟨wa, wb, ha, hb, hne.symm, ?_⟩
    rwa [commonCount_comm wa wb (user_words_values_nodup σ hwf (a, wa) ha)
      (user_words_values_nodup σ hwf (b, wb) hb)]

theorem similarity_edges_exact_witness :
    ((("A", "B") ∈ (update_relationships specStore noFail).store.edges ↔
      ∃ wa wb, ("A", wa) ∈ user_words specStore ∧ ("B", wb) ∈ user_words specStore ∧
        "A" ≠ "B" ∧ min_common_words ≤ commonCount wa wb) ∧
     (("A", "B") ∈ (update_relationships specStore noFail).store.edges ↔
      ("B", "A") ∈ (update_relationships specStore noFail).store.edges)) :=
  similarity_edges_exact specStore (by decide) (by decide) "A" "B"

/-- Claim C9: the relationships batch handed to the edge-writing step
contains each directed edge at most once and contains no self-edge. -/
theorem batch_nodup_no_self (σ : Store) (f : FailSpec) (hwf : Wf σ) :
    (update_relationships σ f).batch.Nodup ∧
    ∀ e ∈ (update_relationships σ f).batch, e.1 ≠ e.2 := by
  have hk := user_words_keys_nodup σ hwf
  have h1 : (buildRelationships (user_words σ)).Nodup := buildRelationships_nodup hk
  have h2 : ∀ e ∈ buildRelationships (user_words σ), e.1 ≠ e.2 := by
    intro e he
    obtain ⟨x, y⟩ := e
    exact no_self_edges hk he
  by_cases hf : f.fetchFails
  · simp [update_relationships, hf]
  · by_cases hlen : (fetch_users_with_content σ).length < 2
    · simp [update_relationships, hf, hlen]
    · by_cases hcl : f.clearFails
      · simp [update_relationships, hf, hlen, hcl]
      · by_cases hempty : (buildRelationships (user_words σ)).isEmpty
        · have hb : (update_relationships σ f).batch = buildRelationships (user_words σ) := by
            simp [update_relationships, hf, hlen, hcl, hempty]
          rw [hb]; exact ⟨h1, h2⟩
        · by_cases hw : f.writeFails
          · have hb : (update_relationships σ f).batch = buildRelationships (user_words σ) := by
              simp [update_relationships, hf, hlen, hcl, hempty, hw]
            rw [hb]; exact ⟨h1, h2⟩
          · have hb : (update_relationships σ f).batch = buildRelationships (user_words σ) := by
              simp [update_relationships, hf, hlen, hcl, hempty, hw]
            rw [hb]; exact ⟨h1, h2⟩

theorem batch_nodup_no_self_witness :
    (update_relationships specStore noFail).batch.Nodup ∧
    ∀ e ∈ (update_relationships specStore noFail).batch, e.1 ≠ e.2 :=
  batch_nodup_no_self specStore noFail (by decide)

/-- Claim C10: a user whose posts all have empty content still counts
toward the 2-user threshold (the corpus query collects the empty
strings), but the empty strings are filtered before joining, so the user
has an empty vocabulary and, with `min_common_words = 1`, never sources
or receives a similarity edge in the rebuilt edge set. -/
theorem empty_content_user (σ : Store) (hwf : Wf σ) (u : User) (hu : u ∈ σ.users)
    (hpost : 0 < (postContents σ u.user_id).length)
    (hempty : ∀ c ∈ postContents σ u.user_id, c = "")
    (h2 : 2 ≤ (fetch_users_with_content σ).length) (b : String) :
    (u.user_id, postContents σ u.user_id) ∈ fetch_users_with_content σ ∧
    (u.user_id, ([] : List String)) ∈ user_words σ ∧
    (u.user_id, b) ∉ (update_relationships σ noFail).store.edges ∧
    (b, u.user_id) ∉ (update_relationships σ noFail).store.edges := by
  have hfetch : (u.user_id, postContents σ u.user_id) ∈ fetch_users_with_content σ :=
    (mem_fetch σ u.user_id (postContents σ u.user_id)).mpr ⟨u, hu, rfl, rfl, hpost⟩
  have hws : wordSet (joinContents (postContents σ u.user_id)) = [] := by
    rw [joinContents_all_empty _ hempty]
    rfl
  have hwords : (u.user_id, ([] : List String)) ∈ user_words σ := by
    rw [user_words_eq σ hwf]
    have hm := List.mem_map_of_mem
      (fun v : String × List String => (v.1, wordSet (joinContents v.2))) hfetch
    simpa [hws] using hm
  refine ⟨hfetch, hwords, ?_, ?_⟩
  · intro hmem
    rw [update_edges_mem_iff σ hwf h2] at hmem
    obtain ⟨wa, wb, ha, hb, hne, hq⟩ := hmem
    have h0 : wa = [] := keys_nodup_value_unique (user_words_keys_nodup σ hwf) ha hwords
    rw [h0, commonCount_nil_left] at hq
    exact absurd hq (by decide)
  · intro hmem
    rw [update_edges_mem_iff σ hwf h2] at hmem
    obtain ⟨wa, wb, ha, hb, hne, hq⟩ := hmem
    have h0 : wb = [] := keys_nodup_value_unique (user_words_keys_nodup σ hwf) hb hwords
    rw [h0, commonCount_nil_right] at hq
    exact absurd hq (by decide)

theorem empty_content_user_witness :
    ("e", postContents emptyContentStore "e") ∈ fetch_users_with_content emptyContentStore ∧
    ("e", ([] : List String)) ∈ user_words emptyContentStore ∧
    ("e", "x") ∉ (update_relationships emptyContentStore noFail).store.edges ∧
    ("x", "e") ∉ (update_relationships emptyContentStore noFail).store.edges :=
  empty_content_user emptyContentStore (by decide) ⟨"e", "E"⟩ (by decide) (by decide)
    (by decide) (by decide) "x"

/-! ## Soft-deleted posts and the corpus (claim C6) -/

lemma filter_map_set_deleted (g : Post → Bool) (uid : String) :
    ∀ l : List Post,
      (((l.map (fun p => { p with deleted := g p })).filter
          (fun p => decide (p.owner = uid))).map (fun p => p.content)) =
        ((l.filter (fun p => decide (p.owner = uid))).map (fun p => p.content)) := by
  intro l
  induction l with
  | nil => rfl
  | cons p ps ih =>
      by_cases h : p.owner = uid <;>
        simp [List.filter_cons, h, ih]

lemma postContents_set_deleted (σ : Store) (g : Post → Bool) (uid : String) :
    postContents (set_deleted_flags σ g) uid = postContents σ uid := by
  unfold postContents set_deleted_flags
  exact filter_map_set_deleted g uid σ.posts

lemma fetch_set_deleted (σ : Store) (g : Post → Bool) :
    fetch_users_with_content (set_deleted_flags σ g) = fetch_users_with_content σ := by
  unfold fetch_users_with_content
  have husers : (set_deleted_flags σ g).users = σ.users := rfl
  rw [husers]
  have hf : (fun u : User =>
      let contents := postContents (set_deleted_flags σ g) u.user_id
      if 0 < contents.length then some (u.user_id, contents) else none) =
    (fun u : User =>
      let contents := postContents σ u.user_id
      if 0 < contents.length then some (u.user_id, contents) else none) := by
    funext u
    simp only [postContents_set_deleted]
  rw [hf]

lemma user_words_set_deleted (σ : Store) (g : Post → Bool) :
    user_words (set_deleted_flags σ g) = user_words σ := by
  unfold user_words user_contents
  rw [fetch_set_deleted]

lemma mergeEdge_edges (σ : Store) (e : String × String) :
    (mergeEdge σ e).edges =
      if (userExists σ e.1 && userExists σ e.2 && !(decide (e ∈ σ.edges))) = true
      then σ.edges ++ [e] else σ.edges := by
  unfold mergeEdge
  split <;> rfl

lemma create_relationships_edges_congr :
    ∀ (rels : List (String × String)) (σa σb : Store),
      σa.users = σb.users → σa.edges = σb.edges →
      (create_relationships σa rels).edges = (create_relationships σb rels).edges := by
  intro rels
  induction rels with
  | nil => intro σa σb _ he; exact he
  | cons e rest ih =>
      intro σa σb hu he
      have hcond : (userExists σa e.1 && userExists σa e.2 && !(decide (e ∈ σa.edges))) =
          (userExists σb e.1 && userExists σb e.2 && !(decide (e ∈ σb.edges))) := by
        unfold userExists
        rw [hu, he]
      have h1 : (mergeEdge σa e).users = (mergeEdge σb e).users := by
        rw [mergeEdge_users, mergeEdge_users, hu]
      have h2 : (mergeEdge σa e).edges = (mergeEdge σb e).edges := by
        rw [mergeEdge_edges, mergeEdge_edges, hcond, he]
      exact ih (mergeEdge σa e) (mergeEdge σb e) h1 h2

/-- Counterexample to claim C6 as stated: in `storeWithDeleted` the only
post of user a is soft-deleted, yet after a successful recomputation user
a sources the similarity edge (a, b): the corpus query does not filter
the deleted marker, so a soft-deleted post's tokens do contribute. -/
theorem deleted_post_contributes :
    (∀ p ∈ storeWithDeleted.posts, p.owner = "a" → p.deleted = true) ∧
    ("a", "b") ∈ (update_relationships storeWithDeleted noFail).store.edges := by
  decide

/-- Claim C6 (amended): the recomputation corpus and the rebuilt
similarity edge set are invariant under arbitrary changes of the posts'
deleted markers: soft-deleted posts contribute to the similarity
recomputation exactly like live ones (only the recent-posts query filters
them). -/
theorem recompute_ignores_deleted_marker (σ : Store) (g : Post → Bool) :
    fetch_users_with_content (set_deleted_flags σ g) = fetch_users_with_content σ ∧
    (update_relationships (set_deleted_flags σ g) noFail).store.edges =
      (update_relationships σ noFail).store.edges := by
  refine ⟨fetch_set_deleted σ g, ?_⟩
  by_cases hlen : (fetch_users_with_content σ).length < 2
  · have hlen2 : (fetch_users_with_content (set_deleted_flags σ g)).length < 2 := by
      rw [fetch_set_deleted]
      exact hlen
    have e1 : (update_relationships (set_deleted_flags σ g) noFail).store =
        set_deleted_flags σ g := by
      simp [update_relationships, noFail, hlen2]
    have e2 : (update_relationships σ noFail).store = σ := by
      simp [update_relationships, noFail, hlen]
    rw [e1, e2]
    rfl
  · have h2 : 2 ≤ (fetch_users_with_content σ).length := by omega
    have h2b : 2 ≤ (fetch_users_with_content (set_deleted_flags σ g)).length := by
      rw [fetch_set_deleted]
      omega
    rw [update_noFail_store _ h2b, update_noFail_store _ h2, user_words_set_deleted]
    exact create_relationships_edges_congr _ _ _ rfl rfl

/-! ## Recent posts (claim C7) -/

lemma get_recent_posts_eq (σ : Store) :
    get_recent_posts σ =
      (List.insertionSort newestFirst
        ((σ.posts.filter (fun p => !p.deleted)).filterMap
          (fun p => (σ.users.find? (fun u => decide (u.user_id = p.owner))).map
            (fun u => RecentRow.mk p.post_id p.content p.sentiment p.timestamp u.name
              u.user_id)))).take 10 := rfl

/-- Claim C7: `get_recent_posts` returns at most 10 rows, ordered newest
first by timestamp, and every row comes from a non-deleted post joined
with its authoring user's id and name. -/
theorem recent_posts_correct (σ : Store) :
    (get_recent_posts σ).length ≤ 10 ∧
    List.Pairwise (fun r1 r2 : RecentRow => r2.timestamp ≤ r1.timestamp)
      (get_recent_posts σ) ∧
    ∀ r ∈ get_recent_posts σ, ∃ p ∈ σ.posts, ∃ u ∈ σ.users,
      p.deleted = false ∧ u.user_id = p.owner ∧
      r = RecentRow.mk p.post_id p.content p.sentiment p.timestamp u.name u.user_id := by
  rw [get_recent_posts_eq]
  refine ⟨?_, ?_, ?_⟩
  · rw [List.length_take]
    exact min_le_left _ _
  · exact List.Pairwise.sublist (List.take_sublist _ _)
      (List.sorted_insertionSort newestFirst _)
  · intro r hr
    have hr1 := List.mem_of_mem_take hr
    rw [List.mem_insertionSort, List.mem_filterMap] at hr1
    obtain ⟨p, hp, hmap⟩ := hr1
    rw [Option.map_eq_some'] at hmap
    obtain ⟨u, hfind, hru⟩ := hmap
    rw [List.mem_filter] at hp
    refine ⟨p, hp.1, u, List.mem_of_find?_eq_some hfind, ?_, ?_, hru.symm⟩
    · simpa using hp.2
    · simpa using List.find?_some hfind

theorem recent_posts_correct_witness :
    (get_recent_posts recentStore).length ≤ 10 ∧
    (∃ p ∈ recentStore.posts, ∃ u ∈ recentStore.users,
      p.deleted = false ∧ u.user_id = p.owner ∧
      RecentRow.mk 2 "new" "neutral" 2 "B" "b" =
        RecentRow.mk p.post_id p.content p.sentiment p.timestamp u.name u.user_id) := by
  have h := recent_posts_correct recentStore
  exact ⟨h.1, h.2.2 (RecentRow.mk 2 "new" "neutral" 2 "B" "b") (by decide)⟩

/-! ## Upsert of users (claim C8) -/

lemma filter_map_upsert_none (uid nm : String) :
    ∀ l : List User, (∀ v ∈ l, v.user_id ≠ uid) →
      (l.map (fun u => if u.user_id = uid then { u with name := nm } else u)).filter
        (fun u => decide (u.user_id = uid)) = [] := by
  intro l
  induction l with
  | nil => intro _; rfl
  | cons v rest ih =>
      intro h
      have hv : v.user_id ≠ uid := h v (List.mem_cons_self v rest)
      rw [List.map_cons, if_neg hv, List.filter_cons, if_neg (by simp [hv])]
      exact ih (fun w hw => h w (List.mem_cons_of_mem v hw))

lemma filter_map_upsert (uid nm : String) :
    ∀ l : List User, (l.map (fun u => u.user_id)).Nodup →
      l.any (fun u => decide (u.user_id = uid)) = true →
      (l.map (fun u => if u.user_id = uid then { u with name := nm } else u)).filter
        (fun u => decide (u.user_id = uid)) = [⟨uid, nm⟩] := by
  intro l
  induction l with
  | nil => intro _ hany; cases hany
  | cons u rest ih =>
      intro hnd hany
      rw [List.map_cons, List.nodup_cons] at hnd
      by_cases hu : u.user_id = uid
      · rw [List.map_cons, if_pos hu, List.filter_cons, if_pos (by simp [hu])]
        have htail : ∀ v ∈ rest, v.user_id ≠ uid := by
          intro v hv hveq
          exact hnd.1 (by rw [hu, ← hveq]; exact List.mem_map_of_mem _ hv)
        rw [filter_map_upsert_none uid nm rest htail]
        have hhead : ({ u with name := nm } : User) = ⟨uid, nm⟩ := by
          cases u
          simp_all
        rw [hhead]
      · rw [List.map_cons, if_neg hu, List.filter_cons, if_neg (by simp [hu])]
        have hany2 : rest.any (fun u => decide (u.user_id = uid)) = true := by
          rw [List.any_cons] at hany
          simpa [hu] using hany
        exact ih hnd.2 hany2

lemma create_user_filter (σ : Store) (uid nm : String) (h : Wf σ) :
    (create_user σ uid nm).users.filter (fun u => decide (u.user_id = uid)) =
      [⟨uid, nm⟩] := by
  unfold create_user
  by_cases hmem : σ.users.any (fun u => decide (u.user_id = uid)) = true
  · rw [if_pos hmem]
    exact filter_map_upsert uid nm σ.users h hmem
  · rw [if_neg hmem]
    dsimp only
    rw [List.filter_append]
    have h1 : σ.users.filter (fun u => decide (u.user_id = uid)) = [] := by
      rw [List.filter_eq_nil_iff]
      intro u hu
      simp only [decide_eq_true_eq]
      intro heq
      exact hmem (List.any_eq_true.mpr ⟨u, hu, by simp [heq]⟩)
    rw [h1]
    simp [List.filter_cons]

lemma wf_create_user (σ : Store) (uid nm : String) (h : Wf σ) :
    Wf (create_user σ uid nm) := by
  unfold Wf create_user
  by_cases hmem : σ.users.any (fun u => decide (u.user_id = uid)) = true
  · rw [if_pos hmem]
    dsimp only
    have hmap : (σ.users.map (fun u => if u.user_id = uid then { u with name := nm } else u)).map
        (fun u => u.user_id) = σ.users.map (fun u => u.user_id) := by
      rw [List.map_map]
      apply List.map_congr_left
      intro u hu
      by_cases hx : u.user_id = uid
      · simp [Function.comp, hx]
      · simp [Function.comp, hx]
    rw [hmap]
    exact h
  · rw [if_neg hmem]
    dsimp only
    rw [List.map_append, List.nodup_append]
    refine ⟨h, by simp, ?_⟩
    intro x hx hx2
    simp only [List.map_cons, List.map_nil, List.mem_singleton] at hx2
    subst hx2
    rw [List.mem_map] at hx
    obtain ⟨u, hu, huid⟩ := hx
    exact hmem (List.any_eq_true.mpr ⟨u, hu, by simp [huid]⟩)

/-- Claim C8: upsertUser is idempotent with last-write-wins on the name:
after `create_user uid name1` then `create_user uid name2` exactly one
user record with that id remains, and its name is name2. -/
theorem upsert_last_write_wins (σ : Store) (uid n1 n2 : String) (h : Wf σ) :
    (create_user (create_user σ uid n1) uid n2).users.filter
      (fun u => decide (u.user_id = uid)) = [⟨uid, n2⟩] :=
  create_user_filter (create_user σ uid n1) uid n2 (wf_create_user σ uid n1 h)

theorem upsert_last_write_wins_witness :
    (create_user (create_user soloStore "a" "N1") "a" "N2").users.filter
      (fun u => decide (u.user_id = "a")) = [⟨"a", "N2"⟩] :=
  upsert_last_write_wins soloStore "a" "N1" "N2" (by decide)
